import Mathlib

namespace Lazarus

/-! Shallow embedding of the Lazarus ingestion pipeline.

The extractor below models `tryParseBuffer` and `handleMessage` from
src/services/liveClient.ts; strings are modelled as `List Char`, exactly
mirroring the character-by-character scan of the source. -/

/-- Scanner state of the incremental extractor in `tryParseBuffer`
(src/services/liveClient.ts, lines 114-117): the running brace count,
whether the scan is currently inside a string literal, and the one-shot
escape flag. -/
structure ScanState where
  depth : Int
  inString : Bool
  escaped : Bool
deriving DecidableEq

/-- Initial scanner state at the opening brace (braceCount 0, not in a
string, not escaped). -/
def initState : ScanState := { depth := 0, inString := false, escaped := false }

/-- One character step of the scan loop in `tryParseBuffer`
(src/services/liveClient.ts, lines 120-137). -/
def scanStep (st : ScanState) (c : Char) : ScanState :=
  if st.inString then
    if c = '\\' ∧ st.escaped = false then { st with escaped := true }
    else if c = '"' ∧ st.escaped = false then { st with inString := false }
    else { st with escaped := false }
  else
    if c = '"' then { st with inString := true }
    else if c = '{' then { st with depth := st.depth + 1 }
    else if c = '}' then { st with depth := st.depth - 1 }
    else st

/-- Folding the scan step over a character list. -/
def scanChars (st : ScanState) : List Char → ScanState
  | [] => st
  | c :: cs => scanChars (scanStep st c) cs

/-- Offset of the character at which the scan of `tryParseBuffer` breaks:
the first unescaped closing brace that returns the depth to zero
(the `endIndex` search of lines 119-138). -/
def findClose : List Char → ScanState → Option Nat
  | [], _ => none
  | c :: rest, st =>
    if st.inString = false ∧ c = '}' ∧ (scanStep st c).depth = 0 then some 0
    else (findClose rest (scanStep st c)).map (· + 1)

/-- Index of the first opening brace, mirroring `buffer.indexOf` at
line 112 of src/services/liveClient.ts. -/
def findOpen : List Char → Option Nat
  | [] => none
  | c :: rest => if c = '{' then some 0 else (findOpen rest).map (· + 1)

theorem findOpen_lt {xs : List Char} {s : Nat} (h : findOpen xs = some s) :
    s < xs.length := by
  induction xs generalizing s with
  | nil => simp [findOpen] at h
  | cons c cs ih =>
    by_cases hc : c = '{'
    · simp [findOpen, hc] at h
      simp
      omega
    · simp [findOpen, hc] at h
      obtain ⟨e, he, rfl⟩ := h
      have := ih he
      simp
      omega

theorem findClose_lt {xs : List Char} {st : ScanState} {e : Nat}
    (h : findClose xs st = some e) : e < xs.length := by
  induction xs generalizing st e with
  | nil => simp [findClose] at h
  | cons c cs ih =>
    simp only [findClose] at h
    split at h
    · simp at h
      simp
      omega
    · simp at h
      obtain ⟨e1, he1, rfl⟩ := h
      have := ih he1
      simp
      omega

/-- The main extraction loop of `tryParseBuffer`
(src/services/liveClient.ts, lines 111-174): repeatedly locate the first
opening brace, scan for its balancing close, cut the candidate span out
of the buffer, and continue on the remainder; if no balancing close is
found the whole buffer is kept for the next call. -/
def extractLoop (buf : List Char) : List (List Char) × List Char :=
  match hs : findOpen buf with
  | none => ([], buf)
  | some s =>
    match findClose (buf.drop s) initState with
    | none => ([], buf)
    | some e =>
      let p := extractLoop (buf.drop (s + e + 1))
      ((buf.drop s).take (e + 1) :: p.1, p.2)
termination_by buf.length
decreasing_by
  have h1 : buf ≠ [] := by
    intro h
    subst h
    simp [findOpen] at hs
  have h2 : 0 < buf.length := List.length_pos.mpr h1
  simp only [List.length_drop]
  omega

/-- The capacity-capped parse pass of `tryParseBuffer`
(src/services/liveClient.ts, lines 103-178): if the accumulated text
exceeds 5000 characters, only its last 2000 characters are scanned. -/
def tryParseBuffer (buf : List Char) : List (List Char) × List Char :=
  extractLoop (if 5000 < buf.length then buf.drop (buf.length - 2000) else buf)

/-- The text-accumulation step of `handleMessage`
(src/services/liveClient.ts, lines 93-101): a nonempty text delta is
appended to the buffer and a parse pass runs; an absent or empty delta
leaves the buffer untouched. -/
def handleMessage (buf frag : List Char) : List (List Char) × List Char :=
  if frag = [] then ([], buf) else tryParseBuffer (buf ++ frag)

/-- Feeding a sequence of text fragments through `handleMessage`,
threading the retained buffer and concatenating the emitted candidate
spans in order. -/
def feedAll : List Char → List (List Char) → List (List Char) × List Char
  | buf, [] => ([], buf)
  | buf, f :: fs =>
    let p := handleMessage buf f
    let q := feedAll p.2 fs
    (p.1 ++ q.1, q.2)

/-- Concatenation of a list of fragments. -/
def joinL (ls : List (List Char)) : List Char := ls.foldr (· ++ ·) []

theorem extractLoop_of_no_open {buf : List Char} (h : findOpen buf = none) :
    extractLoop buf = ([], buf) := by
  rw [extractLoop]
  split
  · rfl
  · next s hs =>
    rw [h] at hs
    exact absurd hs (by simp)

theorem extractLoop_of_no_close {buf : List Char} {s : Nat}
    (h : findOpen buf = some s) (hc : findClose (buf.drop s) initState = none) :
    extractLoop buf = ([], buf) := by
  rw [extractLoop]
  split
  · rfl
  · next s1 hs =>
    rw [h] at hs
    have hss : s1 = s := by
      simpa using hs.symm
    subst hss
    split
    · rfl
    · next e hce =>
      rw [hc] at hce
      exact absurd hce (by simp)

theorem extractLoop_step {buf : List Char} {s e : Nat}
    (h : findOpen buf = some s) (hc : findClose (buf.drop s) initState = some e) :
    extractLoop buf =
      ((buf.drop s).take (e + 1) :: (extractLoop (buf.drop (s + e + 1))).1,
       (extractLoop (buf.drop (s + e + 1))).2) := by
  rw [extractLoop]
  split
  · next hs =>
    rw [h] at hs
    exact absurd hs (by simp)
  · next s1 hs =>
    rw [h] at hs
    have hss : s1 = s := by simpa using hs.symm
    subst hss
    split
    · next hce =>
      rw [hc] at hce
      exact absurd hce (by simp)
    · next e1 hce =>
      rw [hc] at hce
      have hee : e1 = e := by simpa using hce.symm
      subst hee
      rfl

theorem scanChars_append (st : ScanState) (xs ys : List Char) :
    scanChars st (xs ++ ys) = scanChars (scanChars st xs) ys := by
  induction xs generalizing st with
  | nil => rfl
  | cons c cs ih => simpa [scanChars] using ih (scanStep st c)

theorem findClose_append_some {xs : List Char} {st : ScanState} {e : Nat}
    (h : findClose xs st = some e) (ys : List Char) :
    findClose (xs ++ ys) st = some e := by
  induction xs generalizing st e with
  | nil => simp [findClose] at h
  | cons c cs ih =>
    simp only [List.cons_append, findClose] at h ⊢
    by_cases hcond : st.inString = false ∧ c = '}' ∧ (scanStep st c).depth = 0
    · rw [if_pos hcond] at h ⊢
      exact h
    · rw [if_neg hcond] at h ⊢
      cases hfc : findClose cs (scanStep st c) with
      | none =>
        rw [hfc] at h
        simp at h
      | some v =>
        rw [hfc] at h
        simp at h
        simp only [List.append_eq]
        rw [ih hfc]
        simp [h]

theorem findClose_append_none {xs : List Char} {st : ScanState}
    (h : findClose xs st = none) (ys : List Char) :
    findClose (xs ++ ys) st = (findClose ys (scanChars st xs)).map (· + xs.length) := by
  induction xs generalizing st with
  | nil =>
    simp only [List.nil_append, scanChars, List.length_nil]
    cases findClose ys st <;> simp
  | cons c cs ih =>
    simp only [List.cons_append, findClose] at h ⊢
    by_cases hcond : st.inString = false ∧ c = '}' ∧ (scanStep st c).depth = 0
    · rw [if_pos hcond] at h
      simp at h
    · rw [if_neg hcond] at h ⊢
      have hn : findClose cs (scanStep st c) = none := by
        cases hfc : findClose cs (scanStep st c) with
        | none => rfl
        | some v =>
          rw [hfc] at h
          simp at h
      simp only [List.append_eq]
      rw [ih hn]
      simp only [scanChars, List.length_cons]
      cases findClose ys (scanChars (scanStep st c) cs) <;> simp
      omega

theorem findOpen_append_some {xs : List Char} {s : Nat}
    (h : findOpen xs = some s) (ys : List Char) :
    findOpen (xs ++ ys) = some s := by
  induction xs generalizing s with
  | nil => simp [findOpen] at h
  | cons c cs ih =>
    simp only [List.cons_append, findOpen] at h ⊢
    by_cases hc : c = '{'
    · rw [if_pos hc] at h ⊢
      exact h
    · rw [if_neg hc] at h ⊢
      cases hfc : findOpen cs with
      | none =>
        rw [hfc] at h
        simp at h
      | some v =>
        rw [hfc] at h
        simp at h
        simp only [List.append_eq]
        rw [ih hfc]
        simp [h]

theorem findOpen_of_no_brace {xs : List Char} (h : ∀ c ∈ xs, c ≠ '{') :
    findOpen xs = none := by
  induction xs with
  | nil => rfl
  | cons c cs ih =>
    have hc : c ≠ '{' := h c (by simp)
    simp only [findOpen, if_neg hc]
    rw [ih fun x hx => h x (by simp [hx])]
    rfl

theorem findOpen_fill {f t : List Char} (h : ∀ c ∈ f, c ≠ '{') :
    findOpen (f ++ '{' :: t) = some f.length := by
  induction f with
  | nil => simp [findOpen]
  | cons c cs ih =>
    have hc : c ≠ '{' := h c (by simp)
    simp only [List.cons_append, findOpen, if_neg hc]
    simp only [List.append_eq]
    rw [ih fun x hx => h x (by simp [hx])]
    simp


theorem scanChars_cons (st : ScanState) (c : Char) (cs : List Char) :
    scanChars st (c :: cs) = scanChars (scanStep st c) cs := rfl

theorem findClose_cons_no_trigger {st : ScanState} {c : Char}
    (h : ¬(st.inString = false ∧ c = '}' ∧ (scanStep st c).depth = 0))
    (rest : List Char) :
    findClose (c :: rest) st = (findClose rest (scanStep st c)).map (· + 1) := by
  simp [findClose, h]

/-- Grammar of a correctly escaped JSON string body: the characters
between the delimiting quotes, in which a backslash always escapes
exactly the following character and every quote is escaped. -/
inductive StrBody : List Char → Prop
  | nil : StrBody []
  | plain (c : Char) (rest : List Char) : c ≠ '"' → c ≠ '\\' → StrBody rest →
      StrBody (c :: rest)
  | esc (c : Char) (rest : List Char) : StrBody rest → StrBody ('\\' :: c :: rest)

/-- Grammar of the interior of a well-formed, brace-balanced object:
plain characters, complete string literals (whose contents may hold
braces), and complete nested brace groups. -/
inductive Body : List Char → Prop
  | nil : Body []
  | plain (c : Char) (rest : List Char) :
      c ≠ '{' → c ≠ '}' → c ≠ '"' → Body rest → Body (c :: rest)
  | str (s rest : List Char) : StrBody s → Body rest →
      Body ('"' :: (s ++ '"' :: rest))
  | nest (b rest : List Char) : Body b → Body rest →
      Body ('{' :: (b ++ '}' :: rest))

/-- A well-formed, brace-balanced JSON object with correctly escaped
strings: an opening brace, a body, and the matching closing brace. -/
def JsonObject (w : List Char) : Prop := ∃ b, Body b ∧ w = '{' :: (b ++ ['}'])

theorem strBody_scan {s : List Char} (h : StrBody s) (d : Int) :
    scanChars ⟨d, true, false⟩ s = ⟨d, true, false⟩ ∧
    findClose s ⟨d, true, false⟩ = none := by
  induction h with
  | nil => exact ⟨rfl, rfl⟩
  | plain c rest hq hb _ ih =>
    have hstep : scanStep ⟨d, true, false⟩ c = ⟨d, true, false⟩ := by
      simp [scanStep, hq, hb]
    refine ⟨?_, ?_⟩
    · rw [scanChars_cons, hstep, ih.1]
    · rw [findClose_cons_no_trigger (by simp), hstep, ih.2]
      rfl
  | esc c rest _ ih =>
    have hstep1 : scanStep ⟨d, true, false⟩ '\\' = ⟨d, true, true⟩ := by
      simp [scanStep]
    have hstep2 : scanStep ⟨d, true, true⟩ c = ⟨d, true, false⟩ := by
      simp [scanStep]
    refine ⟨?_, ?_⟩
    · rw [scanChars_cons, hstep1, scanChars_cons, hstep2, ih.1]
    · rw [findClose_cons_no_trigger (by simp), hstep1,
          findClose_cons_no_trigger (by simp), hstep2, ih.2]
      rfl

theorem body_scan {b : List Char} (h : Body b) :
    ∀ d : Int, 1 ≤ d →
    scanChars ⟨d, false, false⟩ b = ⟨d, false, false⟩ ∧
    findClose b ⟨d, false, false⟩ = none := by
  induction h with
  | nil => exact fun d _ => ⟨rfl, rfl⟩
  | plain c rest h1 h2 h3 _ ih =>
    intro d hd
    have hstep : scanStep ⟨d, false, false⟩ c = ⟨d, false, false⟩ := by
      simp [scanStep, h1, h2, h3]
    refine ⟨?_, ?_⟩
    · rw [scanChars_cons, hstep, (ih d hd).1]
    · rw [findClose_cons_no_trigger (by simp [h2]), hstep, (ih d hd).2]
      rfl
  | str s rest hsb _ ih =>
    intro d hd
    have hopen : scanStep ⟨d, false, false⟩ '"' = ⟨d, true, false⟩ := by
      simp [scanStep]
    have hclosequote : scanStep ⟨d, true, false⟩ '"' = ⟨d, false, false⟩ := by
      simp [scanStep]
    have hstr := strBody_scan hsb d
    refine ⟨?_, ?_⟩
    · rw [scanChars_cons, hopen, scanChars_append, hstr.1, scanChars_cons,
          hclosequote, (ih d hd).1]
    · rw [findClose_cons_no_trigger (by simp), hopen,
          findClose_append_none hstr.2, hstr.1,
          findClose_cons_no_trigger (by simp), hclosequote, (ih d hd).2]
      rfl
  | nest nb rest _ _ ihb ihr =>
    intro d hd
    have hopen : scanStep ⟨d, false, false⟩ '{' = ⟨d + 1, false, false⟩ := by
      simp [scanStep]
    have hclose : scanStep ⟨d + 1, false, false⟩ '}' = ⟨d, false, false⟩ := by
      simp [scanStep]
    have hinner := ihb (d + 1) (by omega)
    refine ⟨?_, ?_⟩
    · rw [scanChars_cons, hopen, scanChars_append, hinner.1, scanChars_cons,
          hclose, (ihr d hd).1]
    · rw [findClose_cons_no_trigger (by simp), hopen,
          findClose_append_none hinner.2, hinner.1,
          findClose_cons_no_trigger (by rw [hclose]; simp; omega),
          hclose, (ihr d hd).2]
      rfl

theorem jsonObject_findClose {w : List Char} (h : JsonObject w) :
    findClose w initState = some (w.length - 1) := by
  obtain ⟨b, hb, rfl⟩ := h
  have hopen : scanStep initState '{' = ⟨1, false, false⟩ := by
    simp [scanStep, initState]
  have hinner := body_scan hb 1 (by omega)
  have hlast : findClose ['}'] ⟨1, false, false⟩ = some 0 := by
    simp [findClose, scanStep]
  rw [findClose_cons_no_trigger (by simp [initState]), hopen,
      findClose_append_none hinner.2, hinner.1, hlast]
  simp


theorem extractLoop_len_aux :
    ∀ (n : Nat) (buf : List Char), buf.length ≤ n →
      (extractLoop buf).2.length ≤ buf.length := by
  intro n
  induction n with
  | zero =>
    intro buf hlen
    have hb : buf = [] := List.length_eq_zero.mp (Nat.le_zero.mp hlen)
    subst hb
    rw [@extractLoop_of_no_open [] rfl]
  | succ n ih =>
    intro buf hlen
    cases hop : findOpen buf with
    | none => rw [extractLoop_of_no_open hop]
    | some s =>
      cases hcl : findClose (buf.drop s) initState with
      | none => rw [extractLoop_of_no_close hop hcl]
      | some e =>
        rw [extractLoop_step hop hcl]
        have hslt : s < buf.length := findOpen_lt hop
        have hrest : (buf.drop (s + e + 1)).length ≤ n := by
          simp only [List.length_drop]
          omega
        have := ih (buf.drop (s + e + 1)) hrest
        simp only [List.length_drop] at this ⊢
        omega

theorem extractLoop_len (buf : List Char) :
    (extractLoop buf).2.length ≤ buf.length :=
  extractLoop_len_aux buf.length buf (Nat.le_refl _)

theorem extractLoop_quiescent_aux :
    ∀ (n : Nat) (buf : List Char), buf.length ≤ n →
      extractLoop ((extractLoop buf).2) = ([], (extractLoop buf).2) := by
  intro n
  induction n with
  | zero =>
    intro buf hlen
    have hb : buf = [] := List.length_eq_zero.mp (Nat.le_zero.mp hlen)
    subst hb
    have h0 : extractLoop ([] : List Char) = ([], ([] : List Char)) :=
      @extractLoop_of_no_open [] rfl
    simp [h0]
  | succ n ih =>
    intro buf hlen
    cases hop : findOpen buf with
    | none =>
      rw [extractLoop_of_no_open hop]
      exact extractLoop_of_no_open hop
    | some s =>
      cases hcl : findClose (buf.drop s) initState with
      | none =>
        rw [extractLoop_of_no_close hop hcl]
        exact extractLoop_of_no_close hop hcl
      | some e =>
        rw [extractLoop_step hop hcl]
        have hslt : s < buf.length := findOpen_lt hop
        have hrest : (buf.drop (s + e + 1)).length ≤ n := by
          simp only [List.length_drop]
          omega
        exact ih (buf.drop (s + e + 1)) hrest

theorem extractLoop_quiescent (buf : List Char) :
    extractLoop ((extractLoop buf).2) = ([], (extractLoop buf).2) :=
  extractLoop_quiescent_aux buf.length buf (Nat.le_refl _)

theorem extractLoop_append_aux :
    ∀ (n : Nat) (b : List Char), b.length ≤ n → ∀ t : List Char,
      extractLoop (b ++ t) =
        ((extractLoop b).1 ++ (extractLoop ((extractLoop b).2 ++ t)).1,
         (extractLoop ((extractLoop b).2 ++ t)).2) := by
  intro n
  induction n with
  | zero =>
    intro b hlen t
    have hb : b = [] := List.length_eq_zero.mp (Nat.le_zero.mp hlen)
    subst hb
    have h0 : extractLoop ([] : List Char) = ([], ([] : List Char)) :=
      @extractLoop_of_no_open [] rfl
    rw [h0]
    simp
  | succ n ih =>
    intro b hlen t
    cases hop : findOpen b with
    | none =>
      rw [extractLoop_of_no_open hop]
      simp
    | some s =>
      cases hcl : findClose (b.drop s) initState with
      | none =>
        rw [extractLoop_of_no_close hop hcl]
        simp
      | some e =>
        have hslt : s < b.length := findOpen_lt hop
        have helt : e < (b.drop s).length := findClose_lt hcl
        have hop2 : findOpen (b ++ t) = some s := findOpen_append_some hop t
        have hdrop : (b ++ t).drop s = b.drop s ++ t := by
          rw [List.drop_append_eq_append_drop]
          have hz : s - b.length = 0 := by omega
          rw [hz]
          rfl
        have hcl2 : findClose ((b ++ t).drop s) initState = some e := by
          rw [hdrop]
          exact findClose_append_some hcl t
        have htake : ((b ++ t).drop s).take (e + 1) = (b.drop s).take (e + 1) := by
          rw [hdrop, List.take_append_eq_append_take]
          have hz : e + 1 - (b.drop s).length = 0 := by omega
          rw [hz]
          simp
        have hdrop2 : (b ++ t).drop (s + e + 1) = b.drop (s + e + 1) ++ t := by
          rw [List.drop_append_eq_append_drop]
          have hz : s + e + 1 - b.length = 0 := by
            simp only [List.length_drop] at helt
            omega
          rw [hz]
          rfl
        have hrest : (b.drop (s + e + 1)).length ≤ n := by
          simp only [List.length_drop]
          omega
        rw [extractLoop_step hop2 hcl2, extractLoop_step hop hcl, htake, hdrop2,
            ih (b.drop (s + e + 1)) hrest t]
        simp

theorem extractLoop_append (b t : List Char) :
    extractLoop (b ++ t) =
      ((extractLoop b).1 ++ (extractLoop ((extractLoop b).2 ++ t)).1,
       (extractLoop ((extractLoop b).2 ++ t)).2) :=
  extractLoop_append_aux b.length b (Nat.le_refl _) t

theorem extractLoop_infix_aux :
    ∀ (n : Nat) (b : List Char), b.length ≤ n →
      ∀ o ∈ (extractLoop b).1, ∃ u v, b = u ++ o ++ v := by
  intro n
  induction n with
  | zero =>
    intro b hlen o ho
    have hb : b = [] := List.length_eq_zero.mp (Nat.le_zero.mp hlen)
    subst hb
    rw [@extractLoop_of_no_open [] rfl] at ho
    simp at ho
  | succ n ih =>
    intro b hlen o ho
    cases hop : findOpen b with
    | none =>
      rw [extractLoop_of_no_open hop] at ho
      simp at ho
    | some s =>
      cases hcl : findClose (b.drop s) initState with
      | none =>
        rw [extractLoop_of_no_close hop hcl] at ho
        simp at ho
      | some e =>
        rw [extractLoop_step hop hcl] at ho
        have hslt : s < b.length := findOpen_lt hop
        simp only [List.mem_cons] at ho
        cases ho with
        | inl hobj =>
          subst hobj
          refine ⟨b.take s, b.drop (s + e + 1), ?_⟩
          have hsplit2 : (b.drop s).take (e + 1) ++ (b.drop s).drop (e + 1) = b.drop s :=
            List.take_append_drop _ _
          have hdd : (b.drop s).drop (e + 1) = b.drop (s + e + 1) := by
            rw [List.drop_drop]
            have hadd : s + (e + 1) = s + e + 1 := by omega
            rw [hadd]
          rw [List.append_assoc, ← hdd, hsplit2]
          exact (List.take_append_drop s b).symm
        | inr hrec =>
          have hrest : (b.drop (s + e + 1)).length ≤ n := by
            simp only [List.length_drop]
            omega
          obtain ⟨u, v, huv⟩ := ih (b.drop (s + e + 1)) hrest o hrec
          refine ⟨b.take (s + e + 1) ++ u, v, ?_⟩
          rw [List.append_assoc, List.append_assoc, ← List.append_assoc u,
              ← huv, List.take_append_drop]

theorem extractLoop_infix {b : List Char} :
    ∀ o ∈ (extractLoop b).1, ∃ u v, b = u ++ o ++ v :=
  extractLoop_infix_aux b.length b (Nat.le_refl _)


/-- Concatenation of filler and object pairs: each pair contributes its
filler text (which holds no opening brace) followed by its object text. -/
def joinPairs (ps : List ((List Char) × (List Char))) : List Char :=
  joinL (ps.map fun p => p.1 ++ p.2)

theorem extractLoop_stream :
    ∀ (ps : List ((List Char) × (List Char))) (ftail : List Char),
      (∀ p ∈ ps, (∀ c ∈ p.1, c ≠ '{') ∧ JsonObject p.2) →
      (∀ c ∈ ftail, c ≠ '{') →
      extractLoop (joinPairs ps ++ ftail) = (ps.map Prod.snd, ftail) := by
  intro ps
  induction ps with
  | nil =>
    intro ftail _ hft
    have h0 : joinPairs [] = [] := rfl
    rw [h0, List.nil_append, List.map_nil]
    exact extractLoop_of_no_open (findOpen_of_no_brace hft)
  | cons p ps ih =>
    intro ftail hps hft
    obtain ⟨f, o⟩ := p
    have hf : ∀ c ∈ f, c ≠ '{' := (hps (f, o) (by simp)).1
    obtain ⟨b, hb, ho⟩ := (hps (f, o) (by simp)).2
    have ho2 : o = '{' :: (b ++ ['}']) := ho
    have hshape : joinPairs ((f, o) :: ps) ++ ftail
        = f ++ ('{' :: ((b ++ ['}']) ++ (joinPairs ps ++ ftail))) := by
      rw [ho2]
      simp [joinPairs, joinL, List.append_assoc]
    have hopen : findOpen (joinPairs ((f, o) :: ps) ++ ftail) = some f.length := by
      rw [hshape]
      exact findOpen_fill hf
    have hdropf : (joinPairs ((f, o) :: ps) ++ ftail).drop f.length
        = '{' :: ((b ++ ['}']) ++ (joinPairs ps ++ ftail)) := by
      rw [hshape]
      exact List.drop_left' rfl
    have hobj : JsonObject ('{' :: (b ++ ['}'])) := ⟨b, hb, rfl⟩
    have hcl0 : findClose ('{' :: (b ++ ['}'])) initState = some (b.length + 1) := by
      have h1 := jsonObject_findClose hobj
      simpa using h1
    have hcl : findClose ((joinPairs ((f, o) :: ps) ++ ftail).drop f.length) initState
        = some (b.length + 1) := by
      rw [hdropf]
      have h2 := findClose_append_some hcl0 (joinPairs ps ++ ftail)
      simpa [List.append_assoc] using h2
    rw [extractLoop_step hopen hcl]
    have htake : ((joinPairs ((f, o) :: ps) ++ ftail).drop f.length).take (b.length + 1 + 1)
        = o := by
      rw [hdropf, ho2]
      have hc : '{' :: ((b ++ ['}']) ++ (joinPairs ps ++ ftail))
          = ('{' :: (b ++ ['}'])) ++ (joinPairs ps ++ ftail) := by simp
      rw [hc]
      exact List.take_left' (by simp)
    have hdrop2 : (joinPairs ((f, o) :: ps) ++ ftail).drop (f.length + (b.length + 1) + 1)
        = joinPairs ps ++ ftail := by
      rw [hshape]
      have hc : f ++ ('{' :: ((b ++ ['}']) ++ (joinPairs ps ++ ftail)))
          = (f ++ ('{' :: (b ++ ['}']))) ++ (joinPairs ps ++ ftail) := by simp
      rw [hc]
      exact List.drop_left' (by simp; omega)
    have hih := ih ftail (fun q hq => hps q (List.mem_cons_of_mem _ hq)) hft
    rw [htake, hdrop2, hih]
    simp


theorem joinL_cons (f : List Char) (fs : List (List Char)) :
    joinL (f :: fs) = f ++ joinL fs := rfl

theorem feedAll_eq_extractLoop :
    ∀ (frags : List (List Char)) (buf : List Char),
      extractLoop buf = ([], buf) →
      buf.length + (joinL frags).length ≤ 5000 →
      feedAll buf frags = extractLoop (buf ++ joinL frags) := by
  intro frags
  induction frags with
  | nil =>
    intro buf hq hcap
    simp [feedAll, joinL, hq]
  | cons f fs ih =>
    intro buf hq hcap
    rw [joinL_cons] at hcap
    simp only [List.length_append] at hcap
    by_cases hf : f = []
    · subst hf
      have hh : handleMessage buf [] = ([], buf) := by simp [handleMessage]
      have hcap2 : buf.length + (joinL fs).length ≤ 5000 := by
        simp at hcap
        omega
      have hfa := ih buf hq hcap2
      rw [joinL_cons]
      simp only [List.nil_append]
      rw [← hfa]
      simp [feedAll, hh]
    · have hlen1 : (buf ++ f).length ≤ 5000 := by
        simp only [List.length_append]
        omega
      have hh : handleMessage buf f = extractLoop (buf ++ f) := by
        simp only [handleMessage, if_neg hf, tryParseBuffer]
        rw [if_neg (by omega)]
      have hq1 : extractLoop ((extractLoop (buf ++ f)).2) =
          ([], (extractLoop (buf ++ f)).2) := extractLoop_quiescent (buf ++ f)
      have hlen2 : (extractLoop (buf ++ f)).2.length ≤ (buf ++ f).length :=
        extractLoop_len (buf ++ f)
      have hcap2 : (extractLoop (buf ++ f)).2.length + (joinL fs).length ≤ 5000 := by
        simp only [List.length_append] at hlen2
        omega
      have hfa := ih ((extractLoop (buf ++ f)).2) hq1 hcap2
      rw [joinL_cons]
      have hassoc : buf ++ (f ++ joinL fs) = (buf ++ f) ++ joinL fs :=
        (List.append_assoc _ _ _).symm
      rw [hassoc, extractLoop_append (buf ++ f) (joinL fs), ← hfa]
      simp [feedAll, hh]

/-- C1: for every sequence of text fragments whose concatenation is an
interleaving of filler runs (holding no opening brace) and well-formed,
brace-balanced JSON objects with correctly escaped strings, and whose
accumulated length stays within the 5000-character buffer cap, feeding
the fragments one by one through the append-and-parse step emits exactly
the object spans, each exactly once and in order — regardless of where
the split points between fragments fall — and retains exactly the
trailing filler, so no truncated object and no duplicate is ever
emitted. -/
theorem c1_extract_exactly_once
    (frags : List (List Char)) (ps : List ((List Char) × (List Char)))
    (ftail : List Char)
    (hcat : joinL frags = joinPairs ps ++ ftail)
    (hps : ∀ p ∈ ps, (∀ c ∈ p.1, c ≠ '{') ∧ JsonObject p.2)
    (hft : ∀ c ∈ ftail, c ≠ '{')
    (hcap : (joinL frags).length ≤ 5000) :
    feedAll [] frags = (ps.map Prod.snd, ftail) := by
  have hq0 : extractLoop ([] : List Char) = ([], []) := @extractLoop_of_no_open [] rfl
  have h1 := feedAll_eq_extractLoop frags [] hq0 (by simpa using hcap)
  rw [h1, List.nil_append, hcat]
  exact extractLoop_stream ps ftail hps hft

/-- C1 witness: a single object split across two fragments at an
arbitrary point is emitted exactly once and the buffer is left empty. -/
theorem c1_witness :
    (joinL [['{'], ['}']]).length ≤ 5000 ∧
    feedAll [] [['{'], ['}']] = ([['{', '}']], []) := by
  refine ⟨by decide, ?_⟩
  refine c1_extract_exactly_once [['{'], ['}']] [([], ['{', '}'])] [] rfl ?_ (by simp)
    (by decide)
  intro p hp
  have hp2 : p = ([], ['{', '}']) := by simpa using hp
  subst hp2
  exact ⟨by simp, [], Body.nil, rfl⟩

/-- C2: inside a string the scan never changes the brace depth, a
backslash sets the one-shot escape flag, any character consumed while
the flag is set (a backslash included) clears it without further
effect, an unescaped quote leaves the string, and consequently the scan
of every well-formed object — its string values may hold literal braces
or escaped quotes — closes exactly at the object's final character,
neither prematurely nor late. -/
theorem c2_string_scan :
    (∀ (st : ScanState) (c : Char), st.inString = true →
        (scanStep st c).depth = st.depth) ∧
    (∀ d : Int, scanStep ⟨d, true, false⟩ '\\' = ⟨d, true, true⟩) ∧
    (∀ (d : Int) (c : Char), scanStep ⟨d, true, true⟩ c = ⟨d, true, false⟩) ∧
    (∀ d : Int, scanStep ⟨d, true, false⟩ '"' = ⟨d, false, false⟩) ∧
    (∀ w, JsonObject w → findClose w initState = some (w.length - 1)) := by
  refine ⟨?_, ?_, ?_, ?_, fun w hw => jsonObject_findClose hw⟩
  · intro st c h
    simp only [scanStep, h, if_true]
    split_ifs <;> rfl
  · intro d
    simp [scanStep]
  · intro d c
    simp [scanStep]
  · intro d
    simp [scanStep]

/-- C2 witness: scanning a brace inside a string keeps depth 3, and the
scan of an object whose string value holds a literal closing brace ends
exactly at the object's last character. -/
theorem c2_witness :
    (scanStep ⟨3, true, false⟩ '{').depth = 3 ∧
    findClose ['{', '"', 'a', '"', ':', '"', '}', '"', '}'] initState = some 8 := by
  constructor
  · exact c2_string_scan.1 ⟨3, true, false⟩ '{' rfl
  · have hstr1 : StrBody ['a'] := StrBody.plain 'a' [] (by decide) (by decide) StrBody.nil
    have hstr2 : StrBody ['}'] := StrBody.plain '}' [] (by decide) (by decide) StrBody.nil
    have h3 : Body ['"', '}', '"'] := Body.str ['}'] [] hstr2 Body.nil
    have hb2 : Body [':', '"', '}', '"'] :=
      Body.plain ':' _ (by decide) (by decide) (by decide) h3
    have hbody : Body ['"', 'a', '"', ':', '"', '}', '"'] :=
      Body.str ['a'] [':', '"', '}', '"'] hstr1 hb2
    have hobj : JsonObject ['{', '"', 'a', '"', ':', '"', '}', '"', '}'] :=
      ⟨['"', 'a', '"', ':', '"', '}', '"'], hbody, rfl⟩
    have h := c2_string_scan.2.2.2.2 _ hobj
    simpa using h

/-- C7: after every parse pass the retained buffer holds at most 5000
characters; when the accumulated text exceeds 5000 characters, the scan
runs on (and all emissions are contiguous spans of) only the last 2000
retained characters, and the buffer kept afterwards holds at most 2000
characters — the truncation is a total operation, not a failure. -/
theorem c7_truncation (buf : List Char) :
    (tryParseBuffer buf).2.length ≤ 5000 ∧
    (5000 < buf.length →
      tryParseBuffer buf = extractLoop (buf.drop (buf.length - 2000)) ∧
      (tryParseBuffer buf).2.length ≤ 2000 ∧
      ∀ o ∈ (tryParseBuffer buf).1,
        ∃ u v, buf.drop (buf.length - 2000) = u ++ o ++ v) := by
  by_cases h : 5000 < buf.length
  · have heq : tryParseBuffer buf = extractLoop (buf.drop (buf.length - 2000)) := by
      simp [tryParseBuffer, h]
    have hlen : (tryParseBuffer buf).2.length ≤ 2000 := by
      rw [heq]
      have h1 := extractLoop_len (buf.drop (buf.length - 2000))
      simp only [List.length_drop] at h1
      omega
    refine ⟨by omega, fun _ => ⟨heq, hlen, ?_⟩⟩
    intro o ho
    rw [heq] at ho
    exact extractLoop_infix o ho
  · have heq : tryParseBuffer buf = extractLoop buf := by
      simp [tryParseBuffer, h]
    refine ⟨?_, fun hcon => absurd hcon h⟩
    rw [heq]
    have h1 := extractLoop_len buf
    omega

/-- C7 witness: an accumulated buffer of 5001 characters is over the
cap and the retained buffer after the pass holds at most 2000
characters. -/
theorem c7_witness :
    5000 < (List.replicate 5001 'a').length ∧
    (tryParseBuffer (List.replicate 5001 'a')).2.length ≤ 2000 :=
  ⟨by rw [List.length_replicate]; omega,
   (((c7_truncation (List.replicate 5001 'a')).2
      (by rw [List.length_replicate]; omega)).2).1⟩


/-- Parsed JSON values as returned by JSON.parse, used to model the
candidate objects handed to the normalization step and to the socket
message handler. -/
inductive JValue where
  | null : JValue
  | bool (b : Bool) : JValue
  | num (q : ℚ) : JValue
  | str (s : List Char) : JValue
  | arr (elems : List JValue) : JValue
  | obj (fields : List ((List Char) × JValue)) : JValue

/-- JavaScript truthiness of a parsed JSON value: null, false, 0 and
the empty string are falsy; every array and object is truthy. -/
def truthy : JValue → Bool
  | .null => false
  | .bool b => b
  | .num q => if q = 0 then false else true
  | .str s => if s = [] then false else true
  | .arr _ => true
  | .obj _ => true

/-- JavaScript truthiness of a possibly absent value: an absent
property reads as undefined, which is falsy. -/
def truthyOpt : Option JValue → Bool
  | none => false
  | some v => truthy v

/-- First-match association lookup over the fields of a parsed object. -/
def lookupField : List ((List Char) × JValue) → List Char → Option JValue
  | [], _ => none
  | (k, v) :: rest, key => if k = key then some v else lookupField rest key

/-- JavaScript property access on a parsed value: a field of an object,
undefined (`none`) on every other shape. -/
def getField : JValue → List Char → Option JValue
  | .obj fs, key => lookupField fs key
  | _, _ => none

/-- The JavaScript defaulting idiom `x || d`: the value itself when it
is present and truthy, otherwise the default. -/
def jsOr (v : Option JValue) (dflt : JValue) : JValue :=
  match v with
  | some x => if truthy x then x else dflt
  | none => dflt

def statusKey : List Char := "status".toList

def diagnosisKey : List Char := "diagnosis".toList

def confidenceKey : List Char := "confidence".toList

def symptomsKey : List Char := "symptoms".toList

def cprKey : List Char := "cpr_feedback".toList

def timestampKey : List Char := "timestamp".toList

def idKey : List Char := "id".toList

/-- The alert record built by the free-text path
(src/services/liveClient.ts, lines 155-162); field values are the raw
parsed values, since the TypeScript cast performs no runtime
conversion, and the timestamp is the local clock reading at
normalization time. -/
structure MedicalAlert where
  status : JValue
  diagnosis : JValue
  confidence : JValue
  symptoms : JValue
  cprFeedback : Option JValue
  timestamp : Nat

/-- The emission guard and field normalization of `tryParseBuffer`
(src/services/liveClient.ts, lines 154-163): an alert is built when the
parsed value and its status field are truthy, with the documented
defaults and a locally assigned timestamp. -/
def normalizeCandidate (parsed : JValue) (now : Nat) : Option MedicalAlert :=
  if truthy parsed && truthyOpt (getField parsed statusKey) then
    some
      { status := (getField parsed statusKey).getD JValue.null
        diagnosis := jsOr (getField parsed diagnosisKey)
          (JValue.str "Unknown Diagnosis".toList)
        confidence := jsOr (getField parsed confidenceKey) (JValue.num 0)
        symptoms := jsOr (getField parsed symptomsKey) (JValue.arr [])
        cprFeedback := getField parsed cprKey
        timestamp := now }
  else none

/-- The socket-path message handler: `ws.onmessage`
(src/unnamed/part_002, lines 768-775) hands the parsed payload directly
to `handleNewAlert` (lines 461-481), which only spreads in a locally
generated id; no field defaulting and no timestamp assignment happens
on this path. -/
def removeField : List ((List Char) × JValue) → List Char →
    List ((List Char) × JValue)
  | [], _ => []
  | (k, v) :: rest, key =>
    if k = key then removeField rest key else (k, v) :: removeField rest key

def handleNewAlertWs (data : JValue) (uuid : List Char) : JValue :=
  match data with
  | .obj fs => .obj (removeField fs idKey ++ [(idKey, JValue.str uuid)])
  | v => v

theorem lookupField_ws {fs : List ((List Char) × JValue)} {key : List Char}
    (h : key ≠ idKey) (uuid : List Char) :
    lookupField (removeField fs idKey ++ [(idKey, JValue.str uuid)]) key
      = lookupField fs key := by
  have hne : ¬(idKey = key) := fun hh => h hh.symm
  induction fs with
  | nil =>
    simp only [removeField, List.nil_append, lookupField]
    rw [if_neg hne]
  | cons p rest ih =>
    obtain ⟨k, v⟩ := p
    by_cases hk : k = idKey
    · subst hk
      simp only [removeField, if_pos rfl, lookupField]
      rw [if_neg hne]
      exact ih
    · simp only [removeField, if_neg hk, List.cons_append, lookupField]
      by_cases hkk : k = key
      · rw [if_pos hkk, if_pos hkk]
      · rw [if_neg hkk, if_neg hkk]
        exact ih

/-- C3 counterexample: a candidate whose status field is the string
BOGUS — not one of the three enumerated values — still produces an
alert, because the source checks only JavaScript truthiness of the
status field and never compares it against the enumeration. -/
theorem c3_counterexample :
    normalizeCandidate (JValue.obj [(statusKey, JValue.str "BOGUS".toList)]) 0 =
      some
        { status := JValue.str "BOGUS".toList
          diagnosis := JValue.str "Unknown Diagnosis".toList
          confidence := JValue.num 0
          symptoms := JValue.arr []
          cprFeedback := none
          timestamp := 0 } ∧
    "BOGUS".toList ≠ "NORMAL".toList ∧
    "BOGUS".toList ≠ "WARNING".toList ∧
    "BOGUS".toList ≠ "CRITICAL".toList := by
  refine ⟨?_, by decide, by decide, by decide⟩
  rfl

/-- C3 amended: an Alert is produced from a candidate exactly when the
parsed value is truthy and its status field is present with a truthy
value; a candidate whose status is absent or falsy is discarded, but
membership of the status in the three enumerated values is never
checked. -/
theorem c3_status_truthiness (parsed : JValue) (now : Nat) :
    (normalizeCandidate parsed now).isSome =
      (truthy parsed && truthyOpt (getField parsed statusKey)) := by
  unfold normalizeCandidate
  split
  · next hcond => simp [hcond]
  · next hcond => simp_all

/-- C8 counterexample: on the socket JSON path the emitted alert keeps
the remote-supplied timestamp field verbatim, and a missing diagnosis
is not defaulted — the payload is forwarded unnormalized. -/
theorem c8_counterexample :
    getField
        (handleNewAlertWs
          (JValue.obj [(statusKey, JValue.str "CRITICAL".toList),
            (timestampKey, JValue.num 12345)]) "u".toList)
        timestampKey = some (JValue.num 12345) ∧
    getField
        (handleNewAlertWs
          (JValue.obj [(statusKey, JValue.str "CRITICAL".toList),
            (timestampKey, JValue.num 12345)]) "u".toList)
        diagnosisKey = none := by
  exact ⟨rfl, rfl⟩

/-- C8 amended: on the free-text extraction path, normalization fills
the documented defaults (missing diagnosis, confidence and symptoms)
and stamps the alert with the local clock value; the socket JSON path
instead forwards the remote object unchanged apart from the locally
generated id, so every field other than id — the remote-supplied
timestamp included — is read from the remote payload. -/
theorem c8_normalization_paths :
    (∀ (parsed : JValue) (now : Nat) (a : MedicalAlert),
        normalizeCandidate parsed now = some a →
        a.timestamp = now ∧
        (getField parsed diagnosisKey = none →
          a.diagnosis = JValue.str "Unknown Diagnosis".toList) ∧
        (getField parsed confidenceKey = none → a.confidence = JValue.num 0) ∧
        (getField parsed symptomsKey = none → a.symptoms = JValue.arr [])) ∧
    (∀ (fs : List ((List Char) × JValue)) (uuid key : List Char), key ≠ idKey →
        getField (handleNewAlertWs (JValue.obj fs) uuid) key
          = getField (JValue.obj fs) key) := by
  constructor
  · intro parsed now a h
    unfold normalizeCandidate at h
    split at h
    · have ha := (Option.some.injEq _ _).mp h
      subst ha
      refine ⟨rfl, ?_, ?_, ?_⟩
      · intro hnone
        simp [jsOr, hnone]
      · intro hnone
        simp [jsOr, hnone]
      · intro hnone
        simp [jsOr, hnone]
    · exact absurd h (by simp)
  · intro fs uuid key hkey
    simp only [handleNewAlertWs, getField]
    exact lookupField_ws hkey uuid

/-- Concrete alert produced by normalizing a minimal NORMAL candidate
at local time 42, used to witness the amended C8 statement. -/
def alertNormal42 : MedicalAlert :=
  { status := JValue.str "NORMAL".toList
    diagnosis := JValue.str "Unknown Diagnosis".toList
    confidence := JValue.num 0
    symptoms := JValue.arr []
    cprFeedback := none
    timestamp := 42 }

/-- C8 witness: a candidate carrying only a NORMAL status normalizes to
an alert stamped with the local time 42 and the default diagnosis, and
the socket path preserves a remote timestamp field. -/
theorem c8_witness :
    alertNormal42.timestamp = 42 ∧
    alertNormal42.diagnosis = JValue.str "Unknown Diagnosis".toList ∧
    getField (handleNewAlertWs (JValue.obj [(timestampKey, JValue.num 7)])
      "u".toList) timestampKey = some (JValue.num 7) := by
  have h1 := c8_normalization_paths.1
    (JValue.obj [(statusKey, JValue.str "NORMAL".toList)]) 42 alertNormal42 rfl
  have h2 := c8_normalization_paths.2 [(timestampKey, JValue.num 7)]
    "u".toList timestampKey (by decide)
  exact ⟨h1.1, h1.2.1 rfl, h2⟩


/-- Truncation of a rational toward zero, as JavaScript performs when a
number is converted to an integer (ToIntegerOrInfinity). -/
def truncToInt (q : ℚ) : ℤ := if q < 0 then Int.ceil q else Int.floor q

/-- Int16 conversion on storing into an Int16Array: truncate toward
zero, then wrap modulo 2 to the 16 into the signed range. -/
def toInt16 (q : ℚ) : ℤ :=
  if 32768 ≤ truncToInt q % 65536 then truncToInt q % 65536 - 65536
  else truncToInt q % 65536

/-- Per-sample conversion of `floatTo16BitPCM`
(src/services/liveClient.ts, lines 239-246): clamp the sample to the
unit range, scale a negative clamped value by 0x8000 and a non-negative
one by 0x7FFF, and store the product as a 16-bit integer. -/
def pcmSample (x : ℚ) : ℤ :=
  if max (-1) (min 1 x) < 0 then toInt16 (max (-1) (min 1 x) * 32768)
  else toInt16 (max (-1) (min 1 x) * 32767)

/-- Block conversion of `floatTo16BitPCM`: sample-wise over the input. -/
def floatTo16BitPCM (input : List ℚ) : List ℤ := input.map pcmSample

/-- The same conversion without the 16-bit wrap, used to state that the
wrap never fires (no wraparound). -/
def pcmSampleNoWrap (x : ℚ) : ℤ :=
  if max (-1) (min 1 x) < 0 then truncToInt (max (-1) (min 1 x) * 32768)
  else truncToInt (max (-1) (min 1 x) * 32767)

theorem truncToInt_intCast (n : ℤ) : truncToInt (n : ℚ) = n := by
  unfold truncToInt
  split
  · exact Int.ceil_intCast n
  · exact Int.floor_intCast n

theorem toInt16_eq_of_range {q : ℚ} (h1 : -32768 ≤ truncToInt q)
    (h2 : truncToInt q ≤ 32767) : toInt16 q = truncToInt q := by
  unfold toInt16
  omega

/-- C4 counterexample: the in-range sample 1/32768 scales to
32767/32768, which the source truncates to 0, whereas rounding toward
the nearest integer would give 1 — the conversion truncates toward
zero, it does not round to nearest. -/
theorem c4_counterexample :
    pcmSample (1 / 32768) = 0 ∧ round ((1 : ℚ) / 32768 * 32767) = 1 := by
  constructor
  · have hmin : min 1 ((1 : ℚ) / 32768) = 1 / 32768 := min_eq_right (by norm_num)
    have hmax : max (-1 : ℚ) (1 / 32768) = 1 / 32768 := max_eq_right (by norm_num)
    rw [pcmSample, hmin, hmax, if_neg (by norm_num)]
    have hprod : (1 : ℚ) / 32768 * 32767 = 32767 / 32768 := by norm_num
    rw [hprod]
    have htr : truncToInt ((32767 : ℚ) / 32768) = 0 := by
      rw [truncToInt, if_neg (by norm_num)]
      rw [Int.floor_eq_zero_iff]
      constructor <;> norm_num
    rw [toInt16, htr]
    norm_num
  · rw [round_eq]
    have h1 : (1 : ℚ) / 32768 * 32767 + 1 / 2 = 98302 / 65536 := by norm_num
    rw [h1]
    rw [Int.floor_eq_iff]
    constructor <;> norm_num

/-- C4 amended: every converted sample is first clamped to the unit
range, scaled by 32768 when negative and 32767 otherwise, and lies in
the signed 16-bit range with the wrap never firing (no wraparound); the
clamped sample 1.5 converts to 32767 and -2.0 converts to -32768.
In-range fractional products are truncated toward zero, not rounded to
the nearest integer. -/
theorem c4_pcm_clamp :
    (∀ x : ℚ, -32768 ≤ pcmSample x ∧ pcmSample x ≤ 32767 ∧
        pcmSample x = pcmSampleNoWrap x) ∧
    pcmSample (3 / 2) = 32767 ∧ pcmSample (-2) = -32768 := by
  refine ⟨?_, ?_, ?_⟩
  · intro x
    have hs1 : -1 ≤ max (-1 : ℚ) (min 1 x) := le_max_left _ _
    have hs2 : max (-1 : ℚ) (min 1 x) ≤ 1 := max_le (by norm_num) (min_le_left _ _)
    by_cases hneg : max (-1 : ℚ) (min 1 x) < 0
    · have hq1 : (-32768 : ℚ) ≤ max (-1 : ℚ) (min 1 x) * 32768 := by nlinarith
    
      have hq2 : max (-1 : ℚ) (min 1 x) * 32768 < 0 := by nlinarith
      have htr : truncToInt (max (-1 : ℚ) (min 1 x) * 32768)
          = Int.ceil (max (-1 : ℚ) (min 1 x) * 32768) := if_pos hq2
      have hc1 : (-32768 : ℤ) ≤ Int.ceil (max (-1 : ℚ) (min 1 x) * 32768) := by
        have hle : ((-32768 : ℤ) : ℚ) ≤ (Int.ceil (max (-1 : ℚ) (min 1 x) * 32768) : ℚ) :=
          le_trans (by exact_mod_cast hq1) (Int.le_ceil _)
        exact_mod_cast hle
      have hc2 : Int.ceil (max (-1 : ℚ) (min 1 x) * 32768) ≤ 0 := by
        have h0 : max (-1 : ℚ) (min 1 x) * 32768 ≤ ((0 : ℤ) : ℚ) := by
          exact_mod_cast hq2.le
        exact Int.ceil_le.mpr h0
      have ht1 : -32768 ≤ truncToInt (max (-1 : ℚ) (min 1 x) * 32768) := by
        rw [htr]; exact hc1
      have ht2 : truncToInt (max (-1 : ℚ) (min 1 x) * 32768) ≤ 32767 := by
        rw [htr]; omega
      have hw := toInt16_eq_of_range ht1 ht2
      rw [pcmSample, pcmSampleNoWrap, if_pos hneg, if_pos hneg, hw]
      exact ⟨ht1, ht2, rfl⟩
    · have hpos : (0 : ℚ) ≤ max (-1 : ℚ) (min 1 x) := not_lt.mp hneg
      have hq1 : (0 : ℚ) ≤ max (-1 : ℚ) (min 1 x) * 32767 := by nlinarith
      have hq2 : max (-1 : ℚ) (min 1 x) * 32767 ≤ 32767 := by nlinarith
      have htr : truncToInt (max (-1 : ℚ) (min 1 x) * 32767)
          = Int.floor (max (-1 : ℚ) (min 1 x) * 32767) := if_neg (not_lt.mpr hq1)
      have hf1 : (0 : ℤ) ≤ Int.floor (max (-1 : ℚ) (min 1 x) * 32767) := by
        apply Int.le_floor.mpr
        exact_mod_cast hq1
      have hf2 : Int.floor (max (-1 : ℚ) (min 1 x) * 32767) ≤ 32767 := by
        have hle : (Int.floor (max (-1 : ℚ) (min 1 x) * 32767) : ℚ) ≤ ((32767 : ℤ) : ℚ) :=
          le_trans (Int.floor_le _) (by exact_mod_cast hq2)
        exact_mod_cast hle
      have ht1 : -32768 ≤ truncToInt (max (-1 : ℚ) (min 1 x) * 32767) := by
        rw [htr]; omega
      have ht2 : truncToInt (max (-1 : ℚ) (min 1 x) * 32767) ≤ 32767 := by
        rw [htr]; omega
      have hw := toInt16_eq_of_range ht1 ht2
      rw [pcmSample, pcmSampleNoWrap, if_neg hneg, if_neg hneg, hw]
      exact ⟨ht1, ht2, rfl⟩
  · have hmin : min 1 ((3 : ℚ) / 2) = 1 := min_eq_left (by norm_num)
    have hmax : max (-1 : ℚ) 1 = 1 := max_eq_right (by norm_num)
    rw [pcmSample, hmin, hmax, if_neg (by norm_num)]
    have hprod : (1 : ℚ) * 32767 = ((32767 : ℤ) : ℚ) := by norm_num
    rw [hprod, toInt16, truncToInt_intCast]
    decide
  · have hmin : min 1 (-2 : ℚ) = -2 := min_eq_right (by norm_num)
    have hmax : max (-1 : ℚ) (-2) = -1 := max_eq_left (by norm_num)
    rw [pcmSample, hmin, hmax, if_pos (by norm_num)]
    have hprod : (-1 : ℚ) * 32768 = ((-32768 : ℤ) : ℚ) := by norm_num
    rw [hprod, toInt16, truncToInt_intCast]
    decide


/-- One append of the evidence ring buffer: the recorder's
`ondataavailable` body (src/unnamed/part_002, lines 661-669) pushes the
new segment at the tail and, when the stored length then exceeds 5,
shifts exactly the head (oldest segment) off. -/
def ringAppend (α : Type) (buf : List α) (seg : α) : List α :=
  if 5 < (buf ++ [seg]).length then (buf ++ [seg]).tail else buf ++ [seg]

/-- Sequential appends into the evidence ring buffer. -/
def ringAppendAll (α : Type) : List α → List α → List α
  | buf, [] => buf
  | buf, seg :: rest => ringAppendAll α (ringAppend α buf seg) rest

theorem ringAppendAll_eq_drop (α : Type) :
    ∀ (segs buf : List α), buf.length ≤ 5 →
      ringAppendAll α buf segs =
        (buf ++ segs).drop (buf.length + segs.length - 5) := by
  intro segs
  induction segs with
  | nil =>
    intro buf h
    have hz : buf.length + ([] : List α).length - 5 = 0 := by
      simp only [List.length_nil]
      omega
    rw [hz]
    simp [ringAppendAll]
  | cons a rest ih =>
    intro buf h
    simp only [ringAppendAll]
    have hlen1 : (buf ++ [a]).length = buf.length + 1 := by simp
    by_cases h5 : buf.length ≤ 4
    · have hra : ringAppend α buf a = buf ++ [a] := by
        unfold ringAppend
        rw [if_neg (by omega)]
      rw [hra, ih (buf ++ [a]) (by omega)]
      have h1 : (buf ++ [a]) ++ rest = buf ++ a :: rest := by simp
      rw [h1]
      congr 1
      simp only [List.length_append, List.length_cons, List.length_nil]
      omega
    · have h5' : buf.length = 5 := by omega
      have hra : ringAppend α buf a = (buf ++ [a]).drop 1 := by
        unfold ringAppend
        rw [if_pos (by omega)]
        exact (List.drop_one _).symm
      have hdlen : ((buf ++ [a]).drop 1).length = 5 := by
        simp only [List.length_drop]
        omega
      rw [hra, ih ((buf ++ [a]).drop 1) (by rw [hdlen])]
      have hz : 1 - (buf ++ [a]).length = 0 := by omega
      have hX : ((buf ++ [a]) ++ rest).drop 1 = (buf ++ [a]).drop 1 ++ rest := by
        conv_lhs => rw [List.drop_append_eq_append_drop]
        rw [hz, List.drop_zero]
      rw [← hX, hdlen, List.drop_drop]
      have h1 : (buf ++ [a]) ++ rest = buf ++ a :: rest := by simp
      rw [h1]
      congr 1
      simp only [List.length_append, List.length_cons, List.length_nil]
      omega

/-- C5: the ring buffer append pushes at the tail and, whenever the
length exceeds 5, evicts exactly the head, so from any state satisfying
the capacity invariant the stored length stays at most 5 (and every
state reachable from the empty buffer satisfies it); after any 6
sequential appends from such a state the stored contents are exactly
the last 5 appended segments, in append order. -/
theorem c5_ring_capacity_fifo (α : Type) :
    (∀ (buf : List α) (seg : α), buf.length ≤ 5 →
        (ringAppend α buf seg).length ≤ 5) ∧
    (∀ segs : List α, (ringAppendAll α [] segs).length ≤ 5) ∧
    (∀ (buf : List α) (a1 a2 a3 a4 a5 a6 : α), buf.length ≤ 5 →
        ringAppendAll α buf [a1, a2, a3, a4, a5, a6] = [a2, a3, a4, a5, a6]) := by
  refine ⟨?_, ?_, ?_⟩
  · intro buf seg h
    have hlen1 : (buf ++ [seg]).length = buf.length + 1 := by simp
    have hlen2 : (buf ++ [seg]).tail.length = (buf ++ [seg]).length - 1 :=
      List.length_tail _
    unfold ringAppend
    split
    · omega
    · omega
  · intro segs
    rw [ringAppendAll_eq_drop α segs [] (by simp)]
    simp only [List.nil_append, List.length_nil, List.length_drop]
    omega
  · intro buf a1 a2 a3 a4 a5 a6 h
    rw [ringAppendAll_eq_drop α _ buf h]
    have hidx : buf.length + ([a1, a2, a3, a4, a5, a6] : List α).length - 5
        = (buf ++ [a1]).length := by
      simp only [List.length_cons, List.length_nil, List.length_append]
      omega
    rw [hidx]
    have hsplit : buf ++ [a1, a2, a3, a4, a5, a6]
        = (buf ++ [a1]) ++ [a2, a3, a4, a5, a6] := by simp
    rw [hsplit]
    exact List.drop_left _ _

/-- C5 witness: six appends into the empty ring leave exactly the last
five segments in order. -/
theorem c5_witness :
    ringAppendAll Nat [] [1, 2, 3, 4, 5, 6] = [2, 3, 4, 5, 6] :=
  (c5_ring_capacity_fifo Nat).2.2 [] 1 2 3 4 5 6 (by simp)


/-- Alert fields consulted by the replay trigger: status, diagnosis and
symptom list. -/
structure AlertInfo where
  status : List Char
  diagnosis : List Char
  symptoms : List (List Char)

def criticalStatus : List Char := "CRITICAL".toList

/-- A replay artifact: the snapshotted ring contents and the reason
string built from the triggering alert. -/
structure ReplayArtifact (α : Type) where
  chunks : List α
  reason : List Char

/-- Comma-joined symptom list, as in the reason string of
`triggerPhantomReplay`. -/
def joinComma (ss : List (List Char)) : List Char :=
  List.intercalate ", ".toList ss

/-- The reason string of `triggerPhantomReplay`: the diagnosis, a colon
and the comma-joined symptoms. -/
def reasonOf (a : AlertInfo) : List Char :=
  a.diagnosis ++ ": ".toList ++ joinComma a.symptoms

/-- One call of `triggerPhantomReplay` (src/unnamed/part_002, lines
677-699) at time `t`: when fewer than 10000 ms have passed since the
last accepted trigger the request returns with no state change and no
artifact; otherwise the debounce timestamp advances to `t` and, at the
end of the 500 ms grace delay, the ring contents are snapshotted into
an artifact — but only if the ring is nonempty at snapshot time.
`ringAt` gives the ring contents at each instant. -/
def triggerPhantomReplay (α : Type) (ringAt : Nat → List α)
    (lastTime t : Nat) (a : AlertInfo) : Nat × Option (ReplayArtifact α) :=
  if t - lastTime < 10000 then (lastTime, none)
  else (t, if 0 < (ringAt (t + 500)).length
           then some ⟨ringAt (t + 500), reasonOf a⟩ else none)

/-- The CRITICAL gate of `handleNewAlert` (src/unnamed/part_002, lines
461-481): only a CRITICAL alert reaches the replay trigger. -/
def onAlertStep (α : Type) (ringAt : Nat → List α)
    (lastTime t : Nat) (a : AlertInfo) : Nat × Option (ReplayArtifact α) :=
  if a.status = criticalStatus then triggerPhantomReplay α ringAt lastTime t a
  else (lastTime, none)

/-- Processing a time-ordered list of alerts, threading the debounce
timestamp and collecting the artifacts produced. -/
def processAlerts (α : Type) (ringAt : Nat → List α) :
    Nat → List (Nat × AlertInfo) → Nat × List (ReplayArtifact α)
  | lastTime, [] => (lastTime, [])
  | lastTime, (t, a) :: rest =>
    let p := onAlertStep α ringAt lastTime t a
    let q := processAlerts α ringAt p.1 rest
    (q.1, p.2.toList ++ q.2)

/-- Concrete CRITICAL alert used in witnesses and counterexamples. -/
def critX : AlertInfo :=
  { status := criticalStatus, diagnosis := "X".toList, symptoms := [] }

/-- Ring history that is empty until 10600 ms and nonempty afterwards,
so the first trigger's snapshot (at 10500 ms) sees an empty ring. -/
def ringAt0 : Nat → List Nat := fun t => if t < 10600 then [] else [7]

/-- C10: a CRITICAL alert that passes the debounce check while the ring
is empty produces no artifact yet still advances the debounce timestamp
to the trigger time, so a second CRITICAL alert within the next 10
seconds is dropped without producing an artifact — the window is
consumed by accepted triggers, not by artifact production. -/
theorem c10_debounce_consumed_by_trigger (α : Type) (ringAt : Nat → List α)
    (lastTime t1 t2 : Nat) (a1 a2 : AlertInfo)
    (h1 : a1.status = criticalStatus) (h2 : a2.status = criticalStatus)
    (hacc : 10000 ≤ t1 - lastTime)
    (hempty : ringAt (t1 + 500) = [])
    (hwin : t2 - t1 < 10000) :
    onAlertStep α ringAt lastTime t1 a1 = (t1, none) ∧
    processAlerts α ringAt lastTime [(t1, a1), (t2, a2)] = (t1, []) := by
  have hstep1 : onAlertStep α ringAt lastTime t1 a1 = (t1, none) := by
    unfold onAlertStep triggerPhantomReplay
    rw [if_pos h1, if_neg (by omega), hempty]
    simp
  have hstep2 : onAlertStep α ringAt t1 t2 a2 = (t1, none) := by
    unfold onAlertStep triggerPhantomReplay
    rw [if_pos h2, if_pos (by omega)]
  refine ⟨hstep1, ?_⟩
  simp [processAlerts, hstep1, hstep2]

/-- C10 witness: with a permanently empty ring, a CRITICAL alert at
10000 ms is accepted (advancing the timestamp) without an artifact, and
a CRITICAL alert at 12000 ms is dropped; no artifact is ever made. -/
theorem c10_witness :
    processAlerts Nat (fun _ => []) 0 [(10000, critX), (12000, critX)]
      = (10000, []) :=
  (c10_debounce_consumed_by_trigger Nat (fun _ => []) 0 10000 12000 critX critX
    rfl rfl (by omega) rfl (by omega)).2

/-- C6 counterexample: the ring is empty at the first snapshot instant
(10500 ms) and nonempty at the second (12500 ms); no artifact is ever
produced, yet the second CRITICAL alert — arriving with no artifact
production in the preceding 10 seconds — is still dropped, so the
debounce window is not measured from the previous production of a
ReplayArtifact. -/
theorem c6_counterexample :
    (processAlerts Nat ringAt0 0 [(10000, critX), (12000, critX)]).2 = [] ∧
    critX.status = criticalStatus ∧
    ringAt0 (12000 + 500) ≠ [] := by
  refine ⟨rfl, rfl, by decide⟩

/-- C6 amended: the replay trigger is debounced on a 10-second window
measured from the previous accepted trigger (the timestamp advances at
trigger time whether or not an artifact is produced): two CRITICAL
alerts 2 seconds apart yield exactly one ReplayArtifact, the second
request being dropped silently with no state change; two CRITICAL
alerts 11 seconds apart yield two ReplayArtifacts, each snapshotting
the ring contents 500 ms after its own trigger and tagged with its own
alert's diagnosis and symptom list. -/
theorem c6_debounce_scenarios (α : Type) (ringAt : Nat → List α)
    (t1 : Nat) (a1 a2 : AlertInfo)
    (h1 : a1.status = criticalStatus) (h2 : a2.status = criticalStatus)
    (ht : 10000 ≤ t1)
    (hr1 : 0 < (ringAt (t1 + 500)).length)
    (hr2 : 0 < (ringAt (t1 + 11000 + 500)).length) :
    (processAlerts α ringAt 0 [(t1, a1), (t1 + 2000, a2)]).2
      = [⟨ringAt (t1 + 500), reasonOf a1⟩] ∧
    (processAlerts α ringAt 0 [(t1, a1), (t1 + 11000, a2)]).2
      = [⟨ringAt (t1 + 500), reasonOf a1⟩,
         ⟨ringAt (t1 + 11000 + 500), reasonOf a2⟩] := by
  have hstep1 : onAlertStep α ringAt 0 t1 a1
      = (t1, some ⟨ringAt (t1 + 500), reasonOf a1⟩) := by
    unfold onAlertStep triggerPhantomReplay
    rw [if_pos h1, if_neg (by omega), if_pos hr1]
  have hstep2 : onAlertStep α ringAt t1 (t1 + 2000) a2 = (t1, none) := by
    unfold onAlertStep triggerPhantomReplay
    rw [if_pos h2, if_pos (by omega)]
  have hstep3 : onAlertStep α ringAt t1 (t1 + 11000) a2
      = (t1 + 11000, some ⟨ringAt (t1 + 11000 + 500), reasonOf a2⟩) := by
    unfold onAlertStep triggerPhantomReplay
    rw [if_pos h2, if_neg (by omega), if_pos hr2]
  constructor
  · simp [processAlerts, hstep1, hstep2]
  · simp [processAlerts, hstep1, hstep3]

/-- C6 witness: with a ring that always holds one segment, CRITICAL
alerts at 10000 ms and 12000 ms yield exactly one artifact, tagged from
the first alert. -/
theorem c6_witness :
    (processAlerts Nat (fun _ => [7]) 0 [(10000, critX), (10000 + 2000, critX)]).2
      = [⟨[7], reasonOf critX⟩] :=
  (c6_debounce_scenarios Nat (fun _ => [7]) 10000 critX critX rfl rfl
    (by omega) (by simp) (by simp)).1

/-- The reconnect scheduling of `scheduleReconnect`
(src/unnamed/part_002, lines 810-821): any pending timer is cleared and
a single 3000 ms timer is set in its place. -/
def scheduleReconnect (pending : Option Nat) : Option Nat := some 3000

/-- The live-client connection-change handler (src/unnamed/part_002,
lines 718-729): when the link reports disconnected and the stop was not
intentional, a reconnect is scheduled; otherwise the pending timer is
left untouched. -/
def liveConnChange (flag connected : Bool) (pending : Option Nat) : Option Nat :=
  if connected = false ∧ flag = false then scheduleReconnect pending else pending

/-- The socket close handler `ws.onclose` (src/unnamed/part_002, lines
777-785): schedules a reconnect unless the stop was intentional. -/
def wsOnClose (flag : Bool) (pending : Option Nat) : Option Nat :=
  if flag = false then scheduleReconnect pending else pending

/-- The socket error handler `ws.onerror` (src/unnamed/part_002, lines
787-790): records the error text only; it never schedules a reconnect. -/
def wsOnError (flag : Bool) (pending : Option Nat) : Option Nat := pending

/-- C9 counterexample: a WebSocket error event arriving with the
intentional-stop flag clear and no pending timer schedules nothing, so
the claim that every close or error with the flag clear schedules
exactly one reconnect fails on the socket error path. -/
theorem c9_counterexample :
    wsOnError false none = none ∧ (none : Option Nat) ≠ some 3000 :=
  ⟨rfl, by decide⟩

/-- C9 amended: while the intentional-stop flag is set, no close or
error event schedules a reconnect on either path; while it is clear, a
live-client disconnect and a WebSocket close each schedule exactly one
reconnect attempt with the fixed 3000 ms delay, replacing any pending
timer, but a WebSocket error event alone never schedules — that path
reconnects only through the subsequent close event. -/
theorem c9_reconnect_guard :
    (∀ (p : Option Nat) (c : Bool), liveConnChange true c p = p) ∧
    (∀ p : Option Nat, wsOnClose true p = p) ∧
    (∀ p : Option Nat, wsOnError true p = p) ∧
    (∀ p : Option Nat, liveConnChange false false p = some 3000) ∧
    (∀ p : Option Nat, wsOnClose false p = some 3000) ∧
    (∀ p : Option Nat, wsOnError false p = p) := by
  refine ⟨?_, ?_, ?_, ?_, ?_, ?_⟩ <;> intros <;>
    simp [liveConnChange, wsOnClose, wsOnError, scheduleReconnect]

end Lazarus
